import Mathlib

/-!
# Verification of `TreeMultimap` (data-structure-typed)

Shallow embedding of `src/data-structures/binary-tree/tree-multimap.ts`:
an AVL search tree whose nodes carry an occurrence `count`.

Only `tree-multimap.ts` is in the repository excerpt; the base classes
(`BST`, `AVLTree`: keyed insertion, `getNode`, `getRightMost`,
`_balancePath`, in-order `dfs`, `clear`) are modelled from the
specification (sections 4.1 and 4.2).

Modelling choices:
* Keys are `Int` under the default comparator; values are `Int`
  (opaque payloads, never inspected); counts and the `_size`/`_count`
  fields are `Int`, matching JavaScript number arithmetic (which may go
  negative, so `Nat` truncation would be unfaithful).
* Node heights are recomputed (`hgt`) instead of stored: the AVL layer
  recomputes the height of every node on the rebalancing path after each
  structural change, and off-path heights are untouched, so at rest the
  stored heights coincide with the recomputed ones.
* Parent pointers are implicit in the recursion: the imperative
  walk from the changed node up to the root becomes applying the local
  rebalancing step at each enclosing recursion frame on the way out.
-/

/-- A tree of `TreeMultimapNode`s: each node has `left`, `key`, `value`,
`count`, `right`.  `nil` is the absent child (`undefined` in the source). -/
inductive MTree where
  | nil : MTree
  | node (left : MTree) (key : Int) (value : Int) (count : Int) (right : MTree) : MTree
deriving DecidableEq, Repr

/-- The payload of a node: `key`, `value`, `count` (what `_swapProperties`
moves between slots, height excluded since heights are recomputed). -/
structure Payload where
  key : Int
  value : Int
  count : Int
deriving DecidableEq, Repr

namespace MTree

/-- Modelled from the spec: node height, empty subtree = −1 (spec §3,
invariant 2). -/
def hgt : MTree → Int
  | nil => -1
  | node l _ _ _ r => 1 + max (hgt l) (hgt r)

/-- In-order DFS of payloads: models `dfs(node => node, 'in')` (spec §4.1,
`DFS`; both the recursive and the iterative variant yield this sequence). -/
def inOrder : MTree → List Payload
  | nil => []
  | node l k v c r => inOrder l ++ ⟨k, v, c⟩ :: inOrder r

/-- The keys in in-order. -/
def keysIn (t : MTree) : List Int := (inOrder t).map Payload.key

/-- Sum of `count` over all reachable nodes: models the public `count`
getter, which recomputes `sum += node.count` by a full traversal
(tree-multimap.ts lines 63–67). -/
def sumCounts : MTree → Int
  | nil => 0
  | node l _ _ c r => sumCounts l + c + sumCounts r

/-- Number of nodes reachable from the root. -/
def nodesCount : MTree → Int
  | nil => 0
  | node l _ _ _ r => nodesCount l + 1 + nodesCount r

/-- `allB f t`: `f` holds for every key in `t`. -/
def allB (f : Int → Bool) : MTree → Bool
  | nil => true
  | node l k _ _ r => f k && allB f l && allB f r

/-- BST order (spec §3, invariant 1): every key in the left subtree is less
than the node's key, every key in the right subtree greater. -/
def isBSTb : MTree → Bool
  | nil => true
  | node l k _ _ r =>
      allB (fun x => decide (x < k)) l && allB (fun x => decide (k < x)) r
        && isBSTb l && isBSTb r

/-- Modelled from the spec: `isAVLBalanced()`, a diagnostic full-tree scan
confirming |height(left) − height(right)| ≤ 1 at every node (spec §4.2). -/
def isAVLBalanced : MTree → Bool
  | nil => true
  | node l _ _ _ r =>
      decide ((hgt l - hgt r).natAbs ≤ 1) && isAVLBalanced l && isAVLBalanced r

/-- Single right rotation (identity on shapes it does not apply to).
Modelled from the spec (§4.2 rotations). -/
def rotR : MTree → MTree
  | node (node ll lk lv lc lr) k v c r => node ll lk lv lc (node lr k v c r)
  | t => t

/-- Single left rotation. -/
def rotL : MTree → MTree
  | node l k v c (node rl rk rv rc rr) => node (node l k v c rl) rk rv rc rr
  | t => t

/-- Modelled from the spec (§4.2): one step of the rebalancing walk.  If the
balance factor at the root exceeds ±1, apply the appropriate single or
double rotation; otherwise leave the node unchanged.  The upward walk of
`_balancePath` is this step applied at every enclosing recursion frame. -/
def balanceFix (t : MTree) : MTree :=
  match t with
  | nil => nil
  | node l k v c r =>
    if hgt l - hgt r > 1 then
      match l with
      | node ll _ _ _ lr =>
        if hgt ll ≥ hgt lr then rotR (node l k v c r)
        else rotR (node (rotL l) k v c r)
      | nil => node l k v c r
    else if hgt l - hgt r < -1 then
      match r with
      | node rl _ _ _ rr =>
        if hgt rr ≥ hgt rl then rotL (node l k v c r)
        else rotL (node l k v c (rotR r))
      | nil => node l k v c r
    else node l k v c r

/-- Modelled from the spec (§4.1 `add`, §4.2, §4.3): keyed descent by the
comparator.  At an equal key the node is replaced by the incoming node with
the counts merged (`_replaceNode`, tree-multimap.ts lines 377–380) — no
structural change and no rebalancing.  At a leaf position the new node is
linked and every ancestor on the descent path is rebalanced.  Returns the
new tree and whether a node was created. -/
def bstAdd (k v c : Int) : MTree → MTree × Bool
  | nil => (node nil k v c nil, true)
  | node l k0 v0 c0 r =>
    if k < k0 then
      let p := bstAdd k v c l
      (if p.2 then balanceFix (node p.1 k0 v0 c0 r) else node p.1 k0 v0 c0 r, p.2)
    else if k0 < k then
      let p := bstAdd k v c r
      (if p.2 then balanceFix (node l k0 v0 c0 p.1) else node l k0 v0 c0 p.1, p.2)
    else
      (node l k v (c0 + c) r, false)

/-- Modelled from the spec (§4.1 `get` by key): keyed descent. -/
def bstSearch (k : Int) : MTree → Option Payload
  | nil => none
  | node l k0 v0 c0 r =>
    if k < k0 then bstSearch k l
    else if k0 < k then bstSearch k r
    else some ⟨k0, v0, c0⟩

/-- Modelled from the spec (§4.3 `delete`): `getNode(identifier, callback)`
as a predicate search, first match in pre-order. -/
def findFirst (p : Payload → Bool) : MTree → Option Payload
  | nil => none
  | node l k v c r =>
    if p ⟨k, v, c⟩ then some ⟨k, v, c⟩
    else
      match findFirst p l with
      | some pl => some pl
      | none => findFirst p r

end MTree

open MTree in
/-- Concrete sanity check of the embedding. -/
example :
    (bstAdd 2 0 1 (bstAdd 1 0 1 (bstAdd 3 0 1 MTree.nil).1).1).1
      = .node (.node .nil 1 0 1 .nil) 2 0 1 (.node .nil 3 0 1 .nil) := by decide

/-- The tree state: `root`, and the private fields `_size` and `_count` of
`TreeMultimap`.  The public `size` property reads `_size`; the public
`count` property is the recomputing getter `countProp` below. -/
structure MState where
  root : MTree
  _size : Int
  _count : Int
deriving DecidableEq, Repr

/-- The public `count` getter (tree-multimap.ts lines 63–67): a full
traversal summing `node.count`. -/
def countProp (s : MState) : Int := MTree.sumCounts s.root

/-- `iterationType` (spec §6 configuration). -/
inductive IterationType where
  | RECURSIVE : IterationType
  | ITERATIVE : IterationType
deriving DecidableEq, Repr

/-- The `keyOrNodeOrEntry` argument of `add` (tree-multimap.ts lines
103–120): a `TreeMultimapNode`, a key, an entry pair (whose key slot may be
null/undefined), null/undefined itself, or any other value. -/
inductive Exemplar where
  | nodeEx (k : Int) (v : Int) (c : Int) : Exemplar
  | keyEx (k : Int) : Exemplar
  | entryEx (k : Option Int) (v : Int) : Exemplar
  | nullEx : Exemplar
  | otherEx : Exemplar
deriving DecidableEq, Repr

/-- `TreeMultimap.add(keyOrNodeOrEntry, count)` (tree-multimap.ts lines
103–127).  Null/undefined input, an entry with a null/undefined key, and an
unrecognized value return `undefined` and change nothing.  Otherwise the
node is handed to the base-class keyed insertion (`bstAdd`, modelled from
the spec); a fresh insertion increments `_size`; in both the fresh and the
merge case the returned node is truthy, so `_count += orgNodeCount`.
A bare key gets value `undefined`, modelled as `0`. -/
def addEx (s : MState) (x : Exemplar) (cnt : Int) : Option Payload × MState :=
  match x with
  | .nullEx => (none, s)
  | .otherEx => (none, s)
  | .entryEx none _ => (none, s)
  | .nodeEx k v c =>
    let p := MTree.bstAdd k v c s.root
    (some ⟨k, v, c⟩, ⟨p.1, s._size + (if p.2 then 1 else 0), s._count + c⟩)
  | .keyEx k =>
    let p := MTree.bstAdd k 0 cnt s.root
    (some ⟨k, 0, cnt⟩, ⟨p.1, s._size + (if p.2 then 1 else 0), s._count + cnt⟩)
  | .entryEx (some k) v =>
    let p := MTree.bstAdd k v cnt s.root
    (some ⟨k, v, cnt⟩, ⟨p.1, s._size + (if p.2 then 1 else 0), s._count + cnt⟩)

/-- `addMany` (tree-multimap.ts lines 147–149): adds each exemplar in order,
each with the default count 1. -/
def addManyS (s : MState) (xs : List Exemplar) : List (Option Payload) × MState :=
  match xs with
  | [] => ([], s)
  | x :: rest =>
    let p := addEx s x 1
    let q := addManyS p.2 rest
    (p.1 :: q.1, q.2)

/-- `clear()` (tree-multimap.ts lines 297–300): discard the tree, reset
`_size` and `_count` to zero. -/
def clearS (_s : MState) : MState := ⟨.nil, 0, 0⟩

namespace MTree

/-- Structural removal of the right-most node of a (non-empty) subtree:
the in-order predecessor extraction of `delete` (tree-multimap.ts lines
261–272).  The right-most node's payload is returned and its former parent
is linked to its left child; every frame above the splice point applies the
rebalancing step (`_balancePath` from the splice parent upward). -/
def delMax : MTree → Payload × MTree
  | nil => (⟨0, 0, 0⟩, nil)
  | node l k v c nil => (⟨k, v, c⟩, l)
  | node l k v c (node rl rk rv rc rr) =>
    let p := delMax (node rl rk rv rc rr)
    (p.1, balanceFix (node l k v c p.2))

/-- Outcome of the recursive search-and-remove below the root. -/
inductive DelOut where
  | notFound : DelOut
  | decremented (deleted : Payload) (t : MTree) : DelOut
  | removed (deleted : Payload) (t : MTree) : DelOut
deriving DecidableEq, Repr

/-- `delete` at a non-root node (tree-multimap.ts lines 244–277), searching
for the first predicate match in pre-order.  `decremented`: the node had
`count > 1` and `ignoreCount` was false, so only its count was decremented
(`needBalanced` stays undefined — no rebalancing anywhere).  `removed`: the
node was structurally removed; every node has a parent here, so
`needBalanced` is set and every enclosing frame rebalances. -/
def delGo (p : Payload → Bool) (ig : Bool) : MTree → DelOut
  | nil => .notFound
  | node l k v c r =>
    if p ⟨k, v, c⟩ then
      if c > 1 ∧ ¬ig then .decremented ⟨k, v, c - 1⟩ (node l k v (c - 1) r)
      else
        match l with
        | nil => .removed ⟨k, v, c⟩ r
        | node ll lk lv lc lr =>
          let q := delMax (node ll lk lv lc lr)
          .removed ⟨k, v, c⟩ (balanceFix (node q.2 q.1.key q.1.value q.1.count r))
    else
      match delGo p ig l with
      | .decremented d t => .decremented d (node t k v c r)
      | .removed d t => .removed d (balanceFix (node t k v c r))
      | .notFound =>
        match delGo p ig r with
        | .decremented d t => .decremented d (node l k v c t)
        | .removed d t => .removed d (balanceFix (node l k v c t))
        | .notFound => .notFound

end MTree

/-- One element of the sequence returned by `delete`: the deleted node
(abstracted to its payload) and whether a `needBalanced` ancestor was
identified. -/
structure DelRes where
  deleted : Option Payload
  needBalanced : Bool
deriving DecidableEq, Repr

/-- `TreeMultimap.delete(identifier, callback, ignoreCount)`
(tree-multimap.ts lines 229–287).  Empty tree or no predicate match:
empty result, no change.  A match with `count > 1` and `ignoreCount`
false: decrement `count` and `_count` only.  Otherwise structural removal.
When the match is the root with no left child, the code promotes the right
child via `_setRoot` only when that right child exists (line 250): for a
childless root nothing is relinked and the root field keeps pointing at
the removed node, although `_size` and `_count` are still decremented. -/
def deleteP (p : Payload → Bool) (ig : Bool) (s : MState) : List DelRes × MState :=
  match s.root with
  | .nil => ([], s)
  | .node l k v c r =>
    if p ⟨k, v, c⟩ then
      if c > 1 ∧ ¬ig then
        ([⟨some ⟨k, v, c - 1⟩, false⟩],
          ⟨.node l k v (c - 1) r, s._size, s._count - 1⟩)
      else
        match l with
        | .nil =>
          ([⟨some ⟨k, v, c⟩, false⟩],
            ⟨(if r = .nil then s.root else r), s._size - 1, s._count - c⟩)
        | .node ll lk lv lc lr =>
          let q := MTree.delMax (.node ll lk lv lc lr)
          ([⟨some ⟨k, v, c⟩, true⟩],
            ⟨MTree.balanceFix (.node q.2 q.1.key q.1.value q.1.count r),
              s._size - 1, s._count - c⟩)
    else
      match MTree.delGo p ig l with
      | .decremented d t =>
        ([⟨some d, false⟩], ⟨.node t k v c r, s._size, s._count - 1⟩)
      | .removed d t =>
        ([⟨some d, true⟩],
          ⟨MTree.balanceFix (.node t k v c r), s._size - 1, s._count - d.count⟩)
      | .notFound =>
        match MTree.delGo p ig r with
        | .decremented d t =>
          ([⟨some d, false⟩], ⟨.node l k v c t, s._size, s._count - 1⟩)
        | .removed d t =>
          ([⟨some d, true⟩],
            ⟨MTree.balanceFix (.node l k v c t), s._size - 1, s._count - d.count⟩)
        | .notFound => ([], s)

/-- `delete` with the default callback (`node => node.key`) and a key
identifier. -/
def deleteKey (k : Int) (ig : Bool) (s : MState) : List DelRes × MState :=
  deleteP (fun pl => pl.key == k) ig s

/-- Index-emission order of the recursive `buildBalanceBST`
(tree-multimap.ts lines 175–184): median first, then the left half, then
the right half. -/
def pbEmitRec (l r : Int) : List Int :=
  if h : l > r then []
  else
    let m := l + (r - l) / 2
    m :: (pbEmitRec l (m - 1) ++ pbEmitRec (m + 1) r)
termination_by (r + 1 - l).toNat
decreasing_by
  · simp only [not_lt] at h; omega
  · simp only [not_lt] at h; omega

/-- Index-emission order of the iterative variant (tree-multimap.ts lines
187–200): an explicit stack of `[l, r]` ranges; `[m+1, r]` is pushed before
`[l, m-1]`, so the left half is processed first. -/
def pbEmitIter (stack : List (Int × Int)) : List Int :=
  match stack with
  | [] => []
  | (l, r) :: rest =>
    if h : l > r then pbEmitIter rest
    else
      let m := l + (r - l) / 2
      m :: pbEmitIter ((l, m - 1) :: (m + 1, r) :: rest)
termination_by (stack.map (fun pr => 2 * (pr.2 + 1 - pr.1).toNat + 1)).sum
decreasing_by
  · simp only [List.map_cons, List.sum_cons]; omega
  · simp only [not_lt] at h; simp only [List.map_cons, List.sum_cons]; omega

/-- `sorted[i]` for an `Int` index (indices used are always in range). -/
def pNth (sorted : List Payload) (i : Int) : Payload :=
  sorted.getD i.toNat ⟨0, 0, 0⟩

/-- The rebuild loop body of `perfectlyBalance`:
`add([midNode.key, midNode.value], midNode.count)` for each emitted index. -/
def pbAddsOf (sorted : List Payload) (idxs : List Int) (s : MState) : MState :=
  idxs.foldl
    (fun st i =>
      (addEx st (.entryEx (some (pNth sorted i).key) (pNth sorted i).value)
        (pNth sorted i).count).2) s

/-- `perfectlyBalance(iterationType)` (tree-multimap.ts lines 167–203):
capture the in-order node sequence; if empty return `false`; otherwise
`clear()` and re-add the captured `(key, value, count)` triples in
median-first order, recursively or via an explicit range stack. -/
def perfectlyBalance (s : MState) (it : IterationType) : Bool × MState :=
  let sorted := MTree.inOrder s.root
  let n : Int := sorted.length
  if sorted.length < 1 then (false, s)
  else
    match it with
    | .RECURSIVE => (true, pbAddsOf sorted (pbEmitRec 0 (n - 1)) (clearS s))
    | .ITERATIVE => (true, pbAddsOf sorted (pbEmitIter [(0, n - 1)]) (clearS s))

namespace MTree

/-- Decrement the count of the first pre-order predicate match, touching
nothing else (the specification of `delete`'s count-decrement branch). -/
def decFirst (p : Payload → Bool) : MTree → MTree
  | nil => nil
  | node l k v c r =>
    if p ⟨k, v, c⟩ then node l k v (c - 1) r
    else
      match findFirst p l with
      | some _ => node (decFirst p l) k v c r
      | none => node l k v c (decFirst p r)

/-- The tree with all counts erased (link structure, keys and values). -/
def shapeKV : MTree → MTree
  | nil => nil
  | node l k v _ r => node (shapeKV l) k v 0 (shapeKV r)

/-- The tree with values and counts erased (link structure and keys). -/
def shapeK : MTree → MTree
  | nil => nil
  | node l k _ _ r => node (shapeK l) k 0 0 (shapeK r)

end MTree

/-- Sanity: scenario C/D from the spec on a two-node tree. -/
example :
    (deleteKey 5 false ⟨.node (.node .nil 3 0 1 .nil) 5 0 2 .nil, 2, 3⟩).2
      = ⟨.node (.node .nil 3 0 1 .nil) 5 0 1 .nil, 2, 2⟩ := by decide

/-- Sanity: deleting a leaf. -/
example :
    (deleteKey 3 false ⟨.node (.node .nil 3 0 1 .nil) 5 0 1 .nil, 2, 2⟩).2
      = ⟨.node .nil 5 0 1 .nil, 1, 1⟩ := by decide

/-- Sanity: the childless-root deletion leaves the node in `root`. -/
example :
    (deleteKey 5 false ⟨.node .nil 5 0 1 .nil, 1, 1⟩).2
      = ⟨.node .nil 5 0 1 .nil, 0, 0⟩ := by decide

/-- Unfolding: empty range. -/
lemma pbEmitRec_stop (l r : Int) (h : l > r) : pbEmitRec l r = [] := by
  rw [pbEmitRec]; simp [h]

/-- Unfolding: non-empty range. -/
lemma pbEmitRec_go (l r : Int) (h : ¬ l > r) :
    pbEmitRec l r
      = (l + (r - l) / 2)
        :: (pbEmitRec l (l + (r - l) / 2 - 1) ++ pbEmitRec (l + (r - l) / 2 + 1) r) := by
  rw [pbEmitRec]; simp [h]

/-- Unfolding: empty stack. -/
lemma pbEmitIter_nil : pbEmitIter [] = [] := by rw [pbEmitIter]

/-- Unfolding: popped range empty. -/
lemma pbEmitIter_stop (l r : Int) (rest : List (Int × Int)) (h : l > r) :
    pbEmitIter ((l, r) :: rest) = pbEmitIter rest := by
  rw [pbEmitIter]; simp [h]

/-- Unfolding: popped range non-empty. -/
lemma pbEmitIter_go (l r : Int) (rest : List (Int × Int)) (h : ¬ l > r) :
    pbEmitIter ((l, r) :: rest)
      = (l + (r - l) / 2)
        :: pbEmitIter ((l, l + (r - l) / 2 - 1) :: (l + (r - l) / 2 + 1, r) :: rest) := by
  rw [pbEmitIter]; simp [h]

/-- Sanity: the recursive emission on a small range. -/
example : pbEmitRec 0 6 = [3, 1, 0, 2, 5, 4, 6] := by
  norm_num [pbEmitRec_go, pbEmitRec_stop]

/-- The iterative range-stack loop processes the stack exactly as the
recursive variant processes each range in turn: every popped non-empty
range emits its median and then handles the left half completely before
the right half (the pushes are last-in-first-out). -/
lemma pbEmitIter_eq_rec (stack : List (Int × Int)) :
    pbEmitIter stack = stack.foldr (fun pr acc => pbEmitRec pr.1 pr.2 ++ acc) [] := by
  induction stack using pbEmitIter.induct with
  | case1 => rw [pbEmitIter]; simp
  | case2 l r rest h ih =>
      rw [pbEmitIter]
      simp only [h, dite_true, ih, List.foldr_cons, pbEmitRec_stop l r h, List.nil_append]
  | case3 l r rest h m ih =>
      rw [pbEmitIter]
      simp only [h, dite_false, ih, List.foldr_cons, pbEmitRec_go l r h, List.append_assoc,
        List.cons_append]

/-- On a single initial range the two variants emit identical sequences. -/
lemma pbEmitIter_single (l r : Int) : pbEmitIter [(l, r)] = pbEmitRec l r := by
  rw [pbEmitIter_eq_rec]; simp

namespace MTree

/-- If no node matches, the search-and-remove recursion finds nothing. -/
lemma delGo_of_findFirst_none (p : Payload → Bool) (ig : Bool) :
    ∀ t : MTree, findFirst p t = none → delGo p ig t = .notFound := by
  intro t
  induction t with
  | nil => intro _; rfl
  | node l k v c r ihl ihr =>
    intro h
    by_cases hp : p ⟨k, v, c⟩
    · simp [findFirst, hp] at h
    · cases hl : findFirst p l with
      | some pl => simp [findFirst, hp, hl] at h
      | none =>
        have hr : findFirst p r = none := by
          simpa [findFirst, hp, hl] using h
        simp [delGo, hp, ihl hl, ihr hr]

/-- The count-decrement branch of the search-and-remove recursion: a first
match with `count > 1` and `ignoreCount = false` yields exactly the tree
with that one count decremented. -/
lemma delGo_decrement (p : Payload → Bool) :
    ∀ t : MTree, ∀ pl : Payload, findFirst p t = some pl → pl.count > 1 →
      delGo p false t = .decremented ⟨pl.key, pl.value, pl.count - 1⟩ (decFirst p t) := by
  intro t
  induction t with
  | nil => intro pl h; simp [findFirst] at h
  | node l k v c r ihl ihr =>
    intro pl h hc
    by_cases hp : p ⟨k, v, c⟩
    · have hpl : pl = ⟨k, v, c⟩ := by
        have := h; simp [findFirst, hp] at this; exact this.symm
      subst hpl
      simp only [delGo, decFirst, hp, if_true]
      rw [if_pos ⟨hc, by simp⟩]
    · cases hl : findFirst p l with
      | some pl' =>
        have hpl : pl' = pl := by
          have := h; simp [findFirst, hp, hl] at this; exact this
        have hdl := ihl pl' hl (by rw [hpl]; exact hc)
        rw [hpl] at hdl
        simp [delGo, decFirst, hp, hl, hdl]
      | none =>
        have hr : findFirst p r = some pl := by
          have := h; simpa [findFirst, hp, hl] using this
        have hdl := ihr pl hr hc
        simp [delGo, decFirst, hp, hl, delGo_of_findFirst_none p false l hl, hdl]

/-- `decFirst` never changes keys, values or the link structure. -/
lemma shapeKV_decFirst (p : Payload → Bool) :
    ∀ t : MTree, shapeKV (decFirst p t) = shapeKV t := by
  intro t
  induction t with
  | nil => rfl
  | node l k v c r ihl ihr =>
    by_cases hp : p ⟨k, v, c⟩
    · simp [decFirst, hp, shapeKV]
    · cases hl : findFirst p l with
      | some pl => simp [decFirst, hp, hl, shapeKV, ihl]
      | none => simp [decFirst, hp, hl, shapeKV, ihr]

/-- `decFirst` keeps the number of nodes. -/
lemma nodesCount_decFirst (p : Payload → Bool) :
    ∀ t : MTree, nodesCount (decFirst p t) = nodesCount t := by
  intro t
  induction t with
  | nil => rfl
  | node l k v c r ihl ihr =>
    by_cases hp : p ⟨k, v, c⟩
    · simp [decFirst, hp, nodesCount]
    · cases hl : findFirst p l with
      | some pl => simp [decFirst, hp, hl, nodesCount, ihl]
      | none => simp [decFirst, hp, hl, nodesCount, ihr]

/-- When a match exists, `decFirst` lowers the total count by exactly 1. -/
lemma sumCounts_decFirst (p : Payload → Bool) :
    ∀ t : MTree, ∀ pl : Payload, findFirst p t = some pl →
      sumCounts (decFirst p t) = sumCounts t - 1 := by
  intro t
  induction t with
  | nil => intro pl h; simp [findFirst] at h
  | node l k v c r ihl ihr =>
    intro pl h
    by_cases hp : p ⟨k, v, c⟩
    · simp [decFirst, hp, sumCounts]; ring
    · cases hl : findFirst p l with
      | some pl' => simp [decFirst, hp, hl, sumCounts, ihl pl' hl]; ring
      | none =>
        have hr : findFirst p r = some pl := by
          have := h; simpa [findFirst, hp, hl] using this
        simp [decFirst, hp, hl, sumCounts, ihr pl hr]; ring

end MTree

/-- C6.  `delete` with an identifier matching no node under the given
callback returns the empty result sequence and the unchanged state. -/
theorem claim_C6_delete_absent_noop (p : Payload → Bool) (ig : Bool) (s : MState)
    (h : MTree.findFirst p s.root = none) :
    deleteP p ig s = ([], s) := by
  match hs : s, hr : s.root with
  | ⟨.nil, sz, ct⟩, _ => rfl
  | ⟨.node l k v c r, sz, ct⟩, _ =>
    have h' : MTree.findFirst p (MTree.node l k v c r) = none := h
    by_cases hp : p ⟨k, v, c⟩
    · simp [MTree.findFirst, hp] at h'
    · cases hl : MTree.findFirst p l with
      | some pl => simp [MTree.findFirst, hp, hl] at h'
      | none =>
        have hrr : MTree.findFirst p r = none := by
          simpa [MTree.findFirst, hp, hl] using h'
        simp [deleteP, hp, MTree.delGo_of_findFirst_none p ig l hl,
          MTree.delGo_of_findFirst_none p ig r hrr]

/-- Witness for C6 at a concrete input: deleting key 999 from a two-node
tree is a pure no-op with an empty result. -/
theorem claim_C6_witness :
    deleteKey 999 false ⟨.node (.node .nil 3 0 1 .nil) 5 0 2 .nil, 2, 3⟩
      = ([], ⟨.node (.node .nil 3 0 1 .nil) 5 0 2 .nil, 2, 3⟩) :=
  claim_C6_delete_absent_noop (fun pl => pl.key == 999) false
    ⟨.node (.node .nil 3 0 1 .nil) 5 0 2 .nil, 2, 3⟩ (by decide)

/-- C3.  When `delete` (with `ignoreCount = false`) finds a node whose
`count` is greater than 1, it only decrements that node's count and the
total: the result is the tree with that single count lowered
(`decFirst`), the keys, values and link structure are untouched, the node
set keeps its cardinality, `_size` is unchanged, and both the `_count`
field and the recomputed public total drop by exactly 1. -/
theorem claim_C3_delete_decrements_count (p : Payload → Bool) (s : MState) (pl : Payload)
    (h : MTree.findFirst p s.root = some pl) (hc : pl.count > 1) :
    deleteP p false s
        = ([⟨some ⟨pl.key, pl.value, pl.count - 1⟩, false⟩],
            ⟨MTree.decFirst p s.root, s._size, s._count - 1⟩)
      ∧ MTree.shapeKV (MTree.decFirst p s.root) = MTree.shapeKV s.root
      ∧ MTree.nodesCount (MTree.decFirst p s.root) = MTree.nodesCount s.root
      ∧ countProp ⟨MTree.decFirst p s.root, s._size, s._count - 1⟩ = countProp s - 1 := by
  refine ⟨?_, MTree.shapeKV_decFirst p s.root, MTree.nodesCount_decFirst p s.root,
    MTree.sumCounts_decFirst p s.root pl h⟩
  match hs : s with
  | ⟨.nil, sz, ct⟩ => simp [MTree.findFirst] at h
  | ⟨.node l k v c r, sz, ct⟩ =>
    have h' : MTree.findFirst p (MTree.node l k v c r) = some pl := h
    by_cases hp : p ⟨k, v, c⟩
    · have hpl : pl = ⟨k, v, c⟩ := by
        have := h'; simp [MTree.findFirst, hp] at this; exact this.symm
      subst hpl
      simp only [deleteP, MTree.decFirst, hp, if_true]
      rw [if_pos ⟨hc, by simp⟩]
    · cases hl : MTree.findFirst p l with
      | some pl' =>
        have hpl : pl' = pl := by
          have := h'; simp [MTree.findFirst, hp, hl] at this; exact this
        have hdl := MTree.delGo_decrement p l pl' hl (by rw [hpl]; exact hc)
        rw [hpl] at hdl
        simp [deleteP, MTree.decFirst, hp, hl, hdl]
      | none =>
        have hr : MTree.findFirst p r = some pl := by
          have := h'; simpa [MTree.findFirst, hp, hl] using this
        have hdl := MTree.delGo_decrement p r pl hr hc
        simp [deleteP, MTree.decFirst, hp, hl,
          MTree.delGo_of_findFirst_none p false l hl, hdl]

/-- Witness for C3 at a concrete input: scenario C of the spec, a node with
count 2 survives with count 1 and the structure is unchanged. -/
theorem claim_C3_witness :
    deleteP (fun pl => pl.key == 5) false ⟨.node (.node .nil 3 0 1 .nil) 5 7 2 .nil, 2, 3⟩
        = ([⟨some ⟨5, 7, 1⟩, false⟩], ⟨.node (.node .nil 3 0 1 .nil) 5 7 1 .nil, 2, 2⟩)
      ∧ (5:Int) > 1 := by
  have := claim_C3_delete_decrements_count (fun pl => pl.key == 5)
    ⟨.node (.node .nil 3 0 1 .nil) 5 7 2 .nil, 2, 3⟩ ⟨5, 7, 2⟩ (by decide) (by decide)
  exact ⟨by rw [this.1]; decide, by decide⟩

/-- C8.  `add` with a null/undefined argument, or an entry whose key slot
is null/undefined, returns `undefined` and is a pure no-op: the state
(hence also `size`, the node set and the total) is unchanged. -/
theorem claim_C8_add_null_key_noop (s : MState) (cnt v : Int) :
    addEx s .nullEx cnt = (none, s)
      ∧ addEx s (.entryEx none v) cnt = (none, s)
      ∧ countProp (addEx s .nullEx cnt).2 = countProp s
      ∧ (addEx s (.entryEx none v) cnt).2._size = s._size :=
  ⟨rfl, rfl, rfl, rfl⟩

/-- C1 is contradicted by the code on a childless root: `delete` on the
only node of a one-node tree leaves `root` pointing at the removed node
(tree-multimap.ts line 250 reassigns the root only when a right child
exists), so the key is still reachable and the recomputed total does not
drop, although `_size` was decremented to 0. -/
theorem claim_C1_childless_root_still_reachable :
    (deleteKey 5 false ⟨.node .nil 5 0 1 .nil, 1, 1⟩).2.root = .node .nil 5 0 1 .nil
      ∧ (5 : Int) ∈ MTree.keysIn (deleteKey 5 false ⟨.node .nil 5 0 1 .nil, 1, 1⟩).2.root
      ∧ (deleteKey 5 false ⟨.node .nil 5 0 1 .nil, 1, 1⟩).2._size = 0
      ∧ countProp (deleteKey 5 false ⟨.node .nil 5 0 1 .nil, 1, 1⟩).2 = 1 := by decide

/-- C2 is contradicted by the same slip: after deleting the only node,
`_size` is 0 while one node is still reachable from the root (the total
half of the invariant holds trivially, since the public `count` property
recomputes the sum over reachable nodes on every read). -/
theorem claim_C2_size_invariant_broken :
    (deleteKey 7 true ⟨.node .nil 7 0 3 .nil, 1, 3⟩).2._size = 0
      ∧ MTree.nodesCount (deleteKey 7 true ⟨.node .nil 7 0 3 .nil, 1, 3⟩).2.root = 1
      ∧ countProp (deleteKey 7 true ⟨.node .nil 7 0 3 .nil, 1, 3⟩).2
          = MTree.sumCounts (deleteKey 7 true ⟨.node .nil 7 0 3 .nil, 1, 3⟩).2.root := by
  decide

namespace MTree

/-- The comparator descent of `add` restricted to an already-present key:
replace that node's value, merge the counts, touch nothing else. -/
def mergeK (k v c : Int) : MTree → MTree
  | nil => nil
  | node l k0 v0 c0 r =>
    if k < k0 then node (mergeK k v c l) k0 v0 c0 r
    else if k0 < k then node l k0 v0 c0 (mergeK k v c r)
    else node l k v (c0 + c) r

/-- On a present key, `bstAdd` is exactly `mergeK` and creates no node. -/
lemma bstAdd_found (k v c : Int) :
    ∀ t : MTree, ∀ pl : Payload, bstSearch k t = some pl →
      bstAdd k v c t = (mergeK k v c t, false) := by
  intro t
  induction t with
  | nil => intro pl h; simp [bstSearch] at h
  | node l k0 v0 c0 r ihl ihr =>
    intro pl h
    by_cases h1 : k < k0
    · have hs : bstSearch k l = some pl := by simpa [bstSearch, h1] using h
      simp [bstAdd, mergeK, h1, ihl pl hs]
    · by_cases h2 : k0 < k
      · have hs : bstSearch k r = some pl := by simpa [bstSearch, h1, h2] using h
        simp [bstAdd, mergeK, h1, h2, ihr pl hs]
      · simp [bstAdd, mergeK, h1, h2]

/-- `mergeK` keeps keys and the link structure. -/
lemma shapeK_mergeK (k v c : Int) : ∀ t : MTree, shapeK (mergeK k v c t) = shapeK t := by
  intro t
  induction t with
  | nil => rfl
  | node l k0 v0 c0 r ihl ihr =>
    by_cases h1 : k < k0
    · simp [mergeK, h1, shapeK, ihl]
    · by_cases h2 : k0 < k
      · simp [mergeK, h1, h2, shapeK, ihr]
      · simp [mergeK, h1, h2, shapeK]; omega

/-- `mergeK` keeps the number of nodes. -/
lemma nodesCount_mergeK (k v c : Int) :
    ∀ t : MTree, nodesCount (mergeK k v c t) = nodesCount t := by
  intro t
  induction t with
  | nil => rfl
  | node l k0 v0 c0 r ihl ihr =>
    by_cases h1 : k < k0
    · simp [mergeK, h1, nodesCount, ihl]
    · by_cases h2 : k0 < k
      · simp [mergeK, h1, h2, nodesCount, ihr]
      · simp [mergeK, h1, h2, nodesCount]

/-- On a present key, `mergeK` raises the total by exactly the amount. -/
lemma sumCounts_mergeK (k v c : Int) :
    ∀ t : MTree, ∀ pl : Payload, bstSearch k t = some pl →
      sumCounts (mergeK k v c t) = sumCounts t + c := by
  intro t
  induction t with
  | nil => intro pl h; simp [bstSearch] at h
  | node l k0 v0 c0 r ihl ihr =>
    intro pl h
    by_cases h1 : k < k0
    · have hs : bstSearch k l = some pl := by simpa [bstSearch, h1] using h
      simp [mergeK, h1, sumCounts, ihl pl hs]; ring
    · by_cases h2 : k0 < k
      · have hs : bstSearch k r = some pl := by simpa [bstSearch, h1, h2] using h
        simp [mergeK, h1, h2, sumCounts, ihr pl hs]; ring
      · simp [mergeK, h1, h2, sumCounts]; ring

/-- After `mergeK` the node found at `k` carries the merged count. -/
lemma bstSearch_mergeK (k v c : Int) :
    ∀ t : MTree, ∀ pl : Payload, bstSearch k t = some pl →
      bstSearch k (mergeK k v c t) = some ⟨k, v, pl.count + c⟩ := by
  intro t
  induction t with
  | nil => intro pl h; simp [bstSearch] at h
  | node l k0 v0 c0 r ihl ihr =>
    intro pl h
    by_cases h1 : k < k0
    · have hs : bstSearch k l = some pl := by simpa [bstSearch, h1] using h
      simp [mergeK, bstSearch, h1, ihl pl hs]
    · by_cases h2 : k0 < k
      · have hs : bstSearch k r = some pl := by simpa [bstSearch, h1, h2] using h
        simp [mergeK, bstSearch, h1, h2, ihr pl hs]
      · have hpl : pl = ⟨k0, v0, c0⟩ := by
          have := h; simp [bstSearch, h1, h2] at this; exact this.symm
        have hk : k0 = k := by omega
        subst hk hpl
        simp [mergeK, bstSearch, h1, h2]

end MTree

/-- C4.  `add` on an already-present key with an amount: the result is the
`mergeK` tree — the node found at the key now carries the old count plus
the amount, the keys and link structure are untouched, no node is created,
`_size` is unchanged, and both `_count` and the recomputed public total
rise by the amount. -/
theorem claim_C4_add_existing_key_merges (s : MState) (k c : Int) (pl : Payload)
    (h : MTree.bstSearch k s.root = some pl) :
    addEx s (.keyEx k) c
        = (some ⟨k, 0, c⟩, ⟨MTree.mergeK k 0 c s.root, s._size, s._count + c⟩)
      ∧ MTree.bstSearch k (MTree.mergeK k 0 c s.root) = some ⟨k, 0, pl.count + c⟩
      ∧ MTree.shapeK (MTree.mergeK k 0 c s.root) = MTree.shapeK s.root
      ∧ MTree.nodesCount (MTree.mergeK k 0 c s.root) = MTree.nodesCount s.root
      ∧ countProp ⟨MTree.mergeK k 0 c s.root, s._size, s._count + c⟩ = countProp s + c := by
  refine ⟨?_, MTree.bstSearch_mergeK k 0 c s.root pl h, MTree.shapeK_mergeK k 0 c s.root,
    MTree.nodesCount_mergeK k 0 c s.root, MTree.sumCounts_mergeK k 0 c s.root pl h⟩
  simp [addEx, MTree.bstAdd_found k 0 c s.root pl h]

/-- Witness for C4 at a concrete input: scenario B of the spec, re-adding
key 5 leaves one node whose count becomes 2. -/
theorem claim_C4_witness :
    addEx ⟨.node .nil 5 0 1 .nil, 1, 1⟩ (.keyEx 5) 1
        = (some ⟨5, 0, 1⟩, ⟨.node .nil 5 0 2 .nil, 1, 2⟩)
      ∧ MTree.nodesCount (.node .nil 5 0 2 .nil) = 1 := by
  have := claim_C4_add_existing_key_merges ⟨.node .nil 5 0 1 .nil, 1, 1⟩ 5 1
    ⟨5, 0, 1⟩ (by decide)
  exact ⟨by rw [this.1]; decide, by decide⟩

/-- Strict key order on payloads. -/
abbrev pkLt (a b : Payload) : Prop := a.key < b.key

instance : IsAntisymm Payload pkLt :=
  ⟨fun a b h h' => absurd h' (by simpa using Int.lt_asymm h)⟩

/-- Insert a payload before the first strictly greater key (the position at
which a keyed BST descent places a fresh key). -/
def insP (x : Payload) : List Payload → List Payload
  | [] => [x]
  | y :: ys => if x.key < y.key then x :: y :: ys else y :: insP x ys

lemma insP_perm (x : Payload) : ∀ xs : List Payload, List.Perm (insP x xs) (x :: xs) := by
  intro xs
  induction xs with
  | nil => simp [insP]
  | cons y ys ih =>
    by_cases h : x.key < y.key
    · simp [insP, h]
    · simp only [insP, h, if_false]
      exact (ih.cons y).trans (List.Perm.swap x y ys)

lemma insP_append_lt (x z : Payload) (hz : x.key < z.key) :
    ∀ A B : List Payload, insP x (A ++ z :: B) = insP x A ++ z :: B := by
  intro A B
  induction A with
  | nil => simp [insP, hz]
  | cons y ys ih =>
    by_cases h : x.key < y.key
    · simp [insP, h]
    · simp [insP, h, ih]

lemma insP_append_ge (x z : Payload) (hz : ¬ x.key < z.key) :
    ∀ A B : List Payload, (∀ y ∈ A, ¬ x.key < y.key) →
      insP x (A ++ z :: B) = A ++ z :: insP x B := by
  intro A B
  induction A with
  | nil => intro _; simp [insP, hz]
  | cons y ys ih =>
    intro hA
    have hy : ¬ x.key < y.key := hA y (by simp)
    simp only [List.cons_append, insP, hy, if_false]
    exact congrArg (List.cons y) (ih (fun a ha => hA a (by simp [ha])))

/-- Inserting a key not already present keeps the strict sortedness. -/
lemma insP_sorted (x : Payload) :
    ∀ xs : List Payload, xs.Pairwise pkLt → (∀ y ∈ xs, x.key ≠ y.key) →
      (insP x xs).Pairwise pkLt := by
  intro xs
  induction xs with
  | nil => intro _ _; simp [insP]
  | cons y ys ih =>
    intro hs hx
    rw [List.pairwise_cons] at hs
    by_cases h : x.key < y.key
    · simp only [insP, h, if_true]
      refine List.Pairwise.cons ?_ (List.Pairwise.cons hs.1 hs.2)
      intro b hb
      rcases List.mem_cons.mp hb with hb' | hb'
      · subst hb'; exact h
      · exact lt_trans h (hs.1 b hb')
    · simp only [insP, h, if_false]
      refine List.Pairwise.cons ?_ (ih hs.2 (fun a ha => hx a (by simp [ha])))
      intro b hb
      rcases List.mem_cons.mp ((insP_perm x ys).mem_iff.mp hb) with hb' | hb'
      · rw [hb']
        have hxy := hx y (by simp)
        show y.key < x.key
        omega
      · exact hs.1 b hb'

namespace MTree

lemma allB_iff (f : Int → Bool) :
    ∀ t : MTree, allB f t = true ↔ ∀ x ∈ keysIn t, f x = true := by
  intro t
  induction t with
  | nil => simp [allB, keysIn, inOrder]
  | node l k v c r ihl ihr =>
    simp only [allB, Bool.and_eq_true, keysIn, inOrder, List.map_append, List.map_cons,
      List.mem_append, List.mem_cons, ihl, ihr]
    constructor
    · rintro ⟨⟨hk, hl⟩, hr⟩ x (hx | hx | hx)
      · exact hl x hx
      · subst hx; exact hk
      · exact hr x hx
    · intro h
      exact ⟨⟨h k (by simp), fun x hx => h x (by simp [hx])⟩, fun x hx => h x (by simp [hx])⟩

/-- BST order at every node is the same as a strictly increasing in-order
key sequence. -/
lemma isBSTb_iff_pairwise :
    ∀ t : MTree, isBSTb t = true ↔ (keysIn t).Pairwise (· < ·) := by
  intro t
  induction t with
  | nil => simp [isBSTb, keysIn, inOrder]
  | node l k v c r ihl ihr =>
    simp only [isBSTb, Bool.and_eq_true, keysIn, inOrder, List.map_append, List.map_cons,
      List.pairwise_append, List.pairwise_cons, allB_iff, decide_eq_true_eq, ihl, ihr]
    constructor
    · rintro ⟨⟨⟨hlt, hgt'⟩, hbl⟩, hbr⟩
      refine ⟨hbl, ⟨fun b hb => hgt' b hb, hbr⟩, ?_⟩
      intro a ha b hb
      rcases List.mem_cons.mp hb with hb' | hb'
      · subst hb'; exact hlt a ha
      · exact lt_trans (hlt a ha) (hgt' b hb')
    · rintro ⟨hbl, ⟨hk, hbr⟩, hcross⟩
      exact ⟨⟨⟨fun x hx => hcross x hx k (by simp), fun x hx => hk x hx⟩, hbl⟩, hbr⟩

lemma hgt_ge : ∀ t : MTree, -1 ≤ hgt t := by
  intro t
  induction t with
  | nil => simp [hgt]
  | node l k v c r ihl ihr => simp [hgt]; omega

lemma hgt_node (l : MTree) (k v c : Int) (r : MTree) :
    hgt (node l k v c r) = 1 + max (hgt l) (hgt r) := rfl

lemma isAVL_node (l : MTree) (k v c : Int) (r : MTree) :
    isAVLBalanced (node l k v c r) = true
      ↔ (hgt l - hgt r).natAbs ≤ 1 ∧ isAVLBalanced l = true ∧ isAVLBalanced r = true := by
  simp [isAVLBalanced, and_assoc]

/-- Rotations and the rebalancing step permute links only: the in-order
sequence is untouched. -/
lemma inOrder_balanceFix (t : MTree) : inOrder (balanceFix t) = inOrder t := by
  cases t with
  | nil => rfl
  | node l k v c r =>
    simp only [balanceFix]
    by_cases h1 : hgt l - hgt r > 1
    · simp only [h1, if_true]
      cases l with
      | nil => rfl
      | node ll lk lv lc lr =>
        by_cases h2 : hgt ll ≥ hgt lr
        · simp [h2, rotR, inOrder]
        · simp only [h2, if_false]
          cases lr with
          | nil => simp [rotL, rotR, inOrder]
          | node a b1 b2 b3 d => simp [rotL, rotR, inOrder]
    · by_cases h3 : hgt l - hgt r < -1
      · simp only [h1, if_false, h3, if_true]
        cases r with
        | nil => rfl
        | node rl rk rv rc rr =>
          by_cases h2 : hgt rr ≥ hgt rl
          · simp [h2, rotL, inOrder]
          · simp only [h2, if_false]
            cases rl with
            | nil => simp [rotR, rotL, inOrder]
            | node a b1 b2 b3 d => simp [rotR, rotL, inOrder]
      · simp [h1, h3]

lemma balanceFix_id (l : MTree) (k v c : Int) (r : MTree)
    (h : (hgt l - hgt r).natAbs ≤ 1) :
    balanceFix (node l k v c r) = node l k v c r := by
  simp only [balanceFix]
  rw [if_neg (by omega), if_neg (by omega)]

/-- The rebalancing step at a node whose left subtree is exactly two levels
taller than the right restores balance there; the height of the result is
`hgt r + 2` or `hgt r + 3`. -/
lemma balanceFix_left (l r : MTree) (k v c : Int)
    (hl : isAVLBalanced l = true) (hr : isAVLBalanced r = true)
    (hh : hgt l = hgt r + 2) :
    isAVLBalanced (balanceFix (node l k v c r)) = true
      ∧ (hgt (balanceFix (node l k v c r)) = hgt r + 2
          ∨ hgt (balanceFix (node l k v c r)) = hgt r + 3) := by
  cases l with
  | nil => exfalso; have := hgt_ge r; simp [hgt] at hh; omega
  | node ll lk lv lc lr =>
    rw [isAVL_node] at hl
    obtain ⟨hbl, hall, halr⟩ := hl
    rw [hgt_node] at hh
    simp only [balanceFix]
    rw [if_pos (by rw [hgt_node]; omega)]
    by_cases h2 : hgt ll ≥ hgt lr
    · rw [if_pos h2]
      simp only [rotR]
      constructor
      · rw [isAVL_node, isAVL_node]
        exact ⟨by rw [hgt_node]; omega, hall, by omega, halr, hr⟩
      · rw [hgt_node, hgt_node]; omega
    · rw [if_neg h2]
      cases lr with
      | nil => exfalso; have := hgt_ge ll; simp [hgt] at h2; omega
      | node a x1 x2 x3 d =>
        rw [isAVL_node] at halr
        obtain ⟨hbl2, hala, hald⟩ := halr
        rw [hgt_node] at hbl hh h2
        simp only [rotL, rotR]
        constructor
        · rw [isAVL_node, isAVL_node, isAVL_node]
          refine ⟨?_, ⟨?_, hall, hala⟩, ?_, hald, hr⟩ <;> (try simp only [hgt_node]) <;> omega
        · simp only [hgt_node]; omega

/-- Mirror image of `balanceFix_left`. -/
lemma balanceFix_right (l r : MTree) (k v c : Int)
    (hl : isAVLBalanced l = true) (hr : isAVLBalanced r = true)
    (hh : hgt r = hgt l + 2) :
    isAVLBalanced (balanceFix (node l k v c r)) = true
      ∧ (hgt (balanceFix (node l k v c r)) = hgt l + 2
          ∨ hgt (balanceFix (node l k v c r)) = hgt l + 3) := by
  cases r with
  | nil => exfalso; have := hgt_ge l; simp [hgt] at hh; omega
  | node rl rk rv rc rr =>
    rw [isAVL_node] at hr
    obtain ⟨hbr, halrl, halrr⟩ := hr
    rw [hgt_node] at hh
    simp only [balanceFix]
    rw [if_neg (by rw [hgt_node]; omega), if_pos (by rw [hgt_node]; omega)]
    by_cases h2 : hgt rr ≥ hgt rl
    · rw [if_pos h2]
      simp only [rotL]
      constructor
      · rw [isAVL_node, isAVL_node]
        exact ⟨by rw [hgt_node]; omega, ⟨by omega, hl, halrl⟩, halrr⟩
      · rw [hgt_node, hgt_node]; omega
    · rw [if_neg h2]
      cases rl with
      | nil => exfalso; have := hgt_ge rr; simp [hgt] at h2; omega
      | node a x1 x2 x3 d =>
        rw [isAVL_node] at halrl
        obtain ⟨hbr2, hala, hald⟩ := halrl
        rw [hgt_node] at hbr hh h2
        simp only [rotR, rotL]
        constructor
        · rw [isAVL_node, isAVL_node, isAVL_node]
          refine ⟨?_, ⟨?_, hl, hala⟩, ?_, hald, halrr⟩ <;> (try simp only [hgt_node]) <;> omega
        · simp only [hgt_node]; omega

lemma keysIn_node (l : MTree) (k v c : Int) (r : MTree) :
    keysIn (node l k v c r) = keysIn l ++ k :: keysIn r := by
  simp [keysIn, inOrder]

lemma isBSTb_node (l : MTree) (k v c : Int) (r : MTree) :
    isBSTb (node l k v c r) = true
      ↔ allB (fun x => decide (x < k)) l = true ∧ allB (fun x => decide (k < x)) r = true
          ∧ isBSTb l = true ∧ isBSTb r = true := by
  simp [isBSTb, and_assoc]

/-- A key the descent does not find is not in a BST-ordered tree. -/
lemma bstSearch_none_not_mem (k : Int) :
    ∀ t : MTree, isBSTb t = true → bstSearch k t = none → k ∉ keysIn t := by
  intro t
  induction t with
  | nil => intro _ _; simp [keysIn, inOrder]
  | node l k0 v0 c0 r ihl ihr =>
    intro hb hs
    rw [isBSTb_node] at hb
    obtain ⟨hbl, hbr, hl, hr⟩ := hb
    rw [keysIn_node]
    by_cases h1 : k < k0
    · have hsl : bstSearch k l = none := by simpa [bstSearch, h1] using hs
      intro hmem
      rcases List.mem_append.mp hmem with hm | hm
      · exact ihl hl hsl hm
      · rcases List.mem_cons.mp hm with hm' | hm'
        · omega
        · have := (allB_iff _ r).mp hbr k hm'
          simp at this; omega
    · by_cases h2 : k0 < k
      · have hsr : bstSearch k r = none := by simpa [bstSearch, h1, h2] using hs
        intro hmem
        rcases List.mem_append.mp hmem with hm | hm
        · have := (allB_iff _ l).mp hbl k hm
          simp at this; omega
        · rcases List.mem_cons.mp hm with hm' | hm'
          · omega
          · exact ihr hr hsr hm'
      · simp [bstSearch, h1, h2] at hs

lemma bstAdd_fresh (k v c : Int) :
    ∀ t : MTree, bstSearch k t = none → (bstAdd k v c t).2 = true := by
  intro t
  induction t with
  | nil => intro _; rfl
  | node l k0 v0 c0 r ihl ihr =>
    intro hs
    by_cases h1 : k < k0
    · have hsl : bstSearch k l = none := by simpa [bstSearch, h1] using hs
      simp [bstAdd, h1, ihl hsl]
    · by_cases h2 : k0 < k
      · have hsr : bstSearch k r = none := by simpa [bstSearch, h1, h2] using hs
        simp [bstAdd, h1, h2, ihr hsr]
      · simp [bstSearch, h1, h2] at hs

/-- Inserting a fresh key into a BST-ordered tree places its payload at the
sorted position of the in-order sequence. -/
lemma inOrder_bstAdd_none (k v c : Int) :
    ∀ t : MTree, isBSTb t = true → bstSearch k t = none →
      inOrder (bstAdd k v c t).1 = insP ⟨k, v, c⟩ (inOrder t) := by
  intro t
  induction t with
  | nil => intro _ _; simp [bstAdd, inOrder, insP]
  | node l k0 v0 c0 r ihl ihr =>
    intro hb hs
    rw [isBSTb_node] at hb
    obtain ⟨hbl, hbr, hl, hr⟩ := hb
    by_cases h1 : k < k0
    · have hsl : bstSearch k l = none := by simpa [bstSearch, h1] using hs
      have hres : (bstAdd k v c (node l k0 v0 c0 r)).1
          = balanceFix (node (bstAdd k v c l).1 k0 v0 c0 r) := by
        simp [bstAdd, h1, bstAdd_fresh k v c l hsl]
      rw [hres, inOrder_balanceFix]
      show inOrder (bstAdd k v c l).1 ++ _ :: inOrder r = _
      rw [ihl hl hsl, inOrder,
        insP_append_lt ⟨k, v, c⟩ ⟨k0, v0, c0⟩ h1 (inOrder l) (inOrder r)]
    · by_cases h2 : k0 < k
      · have hsr : bstSearch k r = none := by simpa [bstSearch, h1, h2] using hs
        have hres : (bstAdd k v c (node l k0 v0 c0 r)).1
            = balanceFix (node l k0 v0 c0 (bstAdd k v c r).1) := by
          simp [bstAdd, h1, h2, bstAdd_fresh k v c r hsr]
        rw [hres, inOrder_balanceFix]
        show inOrder l ++ _ :: inOrder (bstAdd k v c r).1 = _
        rw [ihr hr hsr, inOrder,
          insP_append_ge ⟨k, v, c⟩ ⟨k0, v0, c0⟩ (by simp; omega) (inOrder l) (inOrder r)
            (by
              intro y hy
              have hmem : y.key ∈ keysIn l := List.mem_map_of_mem Payload.key hy
              have := (allB_iff _ l).mp hbl y.key hmem
              simp at this ⊢; omega)]
      · simp [bstSearch, h1, h2] at hs

lemma hgt_mergeK (k v c : Int) : ∀ t : MTree, hgt (mergeK k v c t) = hgt t := by
  intro t
  induction t with
  | nil => rfl
  | node l k0 v0 c0 r ihl ihr =>
    by_cases h1 : k < k0
    · simp [mergeK, h1, hgt, ihl]
    · by_cases h2 : k0 < k
      · simp [mergeK, h1, h2, hgt, ihr]
      · simp [mergeK, h1, h2, hgt]

lemma isAVL_mergeK (k v c : Int) :
    ∀ t : MTree, isAVLBalanced (mergeK k v c t) = isAVLBalanced t := by
  intro t
  induction t with
  | nil => rfl
  | node l k0 v0 c0 r ihl ihr =>
    by_cases h1 : k < k0
    · simp [mergeK, h1, isAVLBalanced, hgt_mergeK, ihl]
    · by_cases h2 : k0 < k
      · simp [mergeK, h1, h2, isAVLBalanced, hgt_mergeK, ihr]
      · simp [mergeK, h1, h2, isAVLBalanced]

lemma keysIn_mergeK (k v c : Int) : ∀ t : MTree, keysIn (mergeK k v c t) = keysIn t := by
  intro t
  induction t with
  | nil => rfl
  | node l k0 v0 c0 r ihl ihr =>
    by_cases h1 : k < k0
    · simp [mergeK, h1, keysIn_node, ihl]
    · by_cases h2 : k0 < k
      · simp [mergeK, h1, h2, keysIn_node, ihr]
      · simp [mergeK, h1, h2, keysIn_node]; omega

/-- AVL preservation of keyed insertion (modelled from spec §4.2): adding
a fresh key keeps every node balanced and grows the height by at most 1. -/
lemma avl_insert (k v c : Int) :
    ∀ t : MTree, isAVLBalanced t = true → bstSearch k t = none →
      isAVLBalanced (bstAdd k v c t).1 = true
        ∧ (hgt (bstAdd k v c t).1 = hgt t ∨ hgt (bstAdd k v c t).1 = hgt t + 1) := by
  intro t
  induction t with
  | nil =>
    intro _ _
    constructor
    · simp [bstAdd, isAVLBalanced, hgt]
    · simp [bstAdd, hgt]
  | node l k0 v0 c0 r ihl ihr =>
    intro ha hs
    rw [isAVL_node] at ha
    obtain ⟨hb, hal, har⟩ := ha
    by_cases h1 : k < k0
    · have hsl : bstSearch k l = none := by simpa [bstSearch, h1] using hs
      obtain ⟨hA, hH⟩ := ihl hal hsl
      have hres : (bstAdd k v c (node l k0 v0 c0 r)).1
          = balanceFix (node (bstAdd k v c l).1 k0 v0 c0 r) := by
        simp [bstAdd, h1, bstAdd_fresh k v c l hsl]
      rw [hres]
      by_cases hbal : (hgt (bstAdd k v c l).1 - hgt r).natAbs ≤ 1
      · rw [balanceFix_id _ _ _ _ _ hbal]
        refine ⟨(isAVL_node _ _ _ _ _).mpr ⟨hbal, hA, har⟩, ?_⟩
        rw [hgt_node, hgt_node]; omega
      · have h2 : hgt (bstAdd k v c l).1 = hgt r + 2 := by omega
        obtain ⟨hA2, hH2⟩ := balanceFix_left (bstAdd k v c l).1 r k0 v0 c0 hA har h2
        exact ⟨hA2, by rw [hgt_node]; omega⟩
    · by_cases h2 : k0 < k
      · have hsr : bstSearch k r = none := by simpa [bstSearch, h1, h2] using hs
        obtain ⟨hA, hH⟩ := ihr har hsr
        have hres : (bstAdd k v c (node l k0 v0 c0 r)).1
            = balanceFix (node l k0 v0 c0 (bstAdd k v c r).1) := by
          simp [bstAdd, h1, h2, bstAdd_fresh k v c r hsr]
        rw [hres]
        by_cases hbal : (hgt l - hgt (bstAdd k v c r).1).natAbs ≤ 1
        · rw [balanceFix_id _ _ _ _ _ hbal]
          refine ⟨(isAVL_node _ _ _ _ _).mpr ⟨hbal, hal, hA⟩, ?_⟩
          rw [hgt_node, hgt_node]; omega
        · have h3 : hgt (bstAdd k v c r).1 = hgt l + 2 := by omega
          obtain ⟨hA2, hH2⟩ := balanceFix_right l (bstAdd k v c r).1 k0 v0 c0 hal hA h3
          exact ⟨hA2, by rw [hgt_node]; omega⟩
      · simp [bstSearch, h1, h2] at hs

end MTree

/-- The integer interval `[l, r]` as a list. -/
def intRange (l r : Int) : List Int :=
  if h : l > r then []
  else l :: intRange (l + 1) r
termination_by (r + 1 - l).toNat
decreasing_by simp only [not_lt] at h; omega

lemma intRange_stop (l r : Int) (h : l > r) : intRange l r = [] := by
  rw [intRange]; simp [h]

lemma intRange_go (l r : Int) (h : ¬ l > r) : intRange l r = l :: intRange (l + 1) r := by
  rw [intRange]; simp [h]

lemma intRange_split : ∀ (n : Nat) (l m r : Int), (m - l).toNat = n → l ≤ m → m ≤ r →
    intRange l r = intRange l (m - 1) ++ m :: intRange (m + 1) r := by
  intro n
  induction n with
  | zero =>
    intro l m r hn hlm hmr
    have hm : l = m := by omega
    subst hm
    rw [intRange_stop l (l - 1) (by omega), intRange_go l r (by omega), List.nil_append]
  | succ n ih =>
    intro l m r hn hlm hmr
    rw [intRange_go l r (by omega), ih (l + 1) m r (by omega) (by omega) hmr,
      intRange_go l (m - 1) (by omega), List.cons_append]

/-- The recursive median emission visits exactly the indices of the range,
each once. -/
lemma pbEmitRec_perm : ∀ l r : Int, List.Perm (pbEmitRec l r) (intRange l r) := by
  intro l r
  induction l, r using pbEmitRec.induct with
  | case1 l r h => rw [pbEmitRec_stop l r h, intRange_stop l r h]
  | case2 l r h m hl hr =>
    rw [pbEmitRec_go l r h]
    rw [intRange_split ((l + (r - l) / 2) - l).toNat l (l + (r - l) / 2) r rfl
      (by omega) (by omega)]
    exact ((hl.append hr).cons _).trans List.perm_middle.symm

lemma intRange_map_pNth : ∀ (ys xs : List Payload) (l : Int), 0 ≤ l →
    xs.drop l.toNat = ys → (intRange l ((xs.length : Int) - 1)).map (pNth xs) = ys := by
  intro ys
  induction ys with
  | nil =>
    intro xs l hl hdrop
    have hlen : xs.length ≤ l.toNat := by
      by_contra hcon
      push_neg at hcon
      have := List.drop_eq_getElem_cons hcon
      rw [hdrop] at this
      exact List.cons_ne_nil _ _ this.symm
    rw [intRange_stop l ((xs.length : Int) - 1) (by omega)]
    rfl
  | cons y ys ih =>
    intro xs l hl hdrop
    have hlt : l.toNat < xs.length := by
      by_contra hcon
      push_neg at hcon
      rw [List.drop_eq_nil_of_le hcon] at hdrop
      exact List.cons_ne_nil _ _ hdrop.symm
    have hsplit := List.drop_eq_getElem_cons hlt
    rw [hdrop] at hsplit
    obtain ⟨hy, hys⟩ := List.cons.injEq .. ▸ hsplit.symm
    rw [intRange_go l ((xs.length : Int) - 1) (by omega), List.map_cons]
    have h1 : pNth xs l = y := by
      rw [pNth, List.getD_eq_getElem xs _ hlt, hy]
    have h2 := ih xs (l + 1) (by omega) (by rw [← hys]; congr 1; omega)
    rw [h1, h2]

namespace MTree

lemma bstSearch_mem (k : Int) :
    ∀ t : MTree, ∀ pl : Payload, bstSearch k t = some pl → k ∈ keysIn t := by
  intro t
  induction t with
  | nil => intro pl h; simp [bstSearch] at h
  | node l k0 v0 c0 r ihl ihr =>
    intro pl h
    rw [keysIn_node]
    by_cases h1 : k < k0
    · have hs : bstSearch k l = some pl := by simpa [bstSearch, h1] using h
      exact List.mem_append.mpr (Or.inl (ihl pl hs))
    · by_cases h2 : k0 < k
      · have hs : bstSearch k r = some pl := by simpa [bstSearch, h1, h2] using h
        exact List.mem_append.mpr (Or.inr (List.mem_cons.mpr (Or.inr (ihr pl hs))))
      · have : k = k0 := by omega
        subst this
        simp

lemma inOrder_ne_nil : ∀ t : MTree, t ≠ nil → inOrder t ≠ [] := by
  intro t h
  cases t with
  | nil => exact absurd rfl h
  | node l k v c r => simp [inOrder]

/-- Invariant of the rebuild loop: folding fresh-keyed insertions over a
BST-ordered AVL tree keeps both invariants and accumulates exactly the
inserted payloads. -/
lemma build_fold :
    ∀ (ps : List Payload) (t : MTree), isBSTb t = true → isAVLBalanced t = true →
      (∀ p ∈ ps, p.key ∉ keysIn t) →
      ps.Pairwise (fun a b => a.key ≠ b.key) →
      isBSTb (ps.foldl (fun t p => (bstAdd p.key p.value p.count t).1) t) = true
        ∧ isAVLBalanced (ps.foldl (fun t p => (bstAdd p.key p.value p.count t).1) t) = true
        ∧ List.Perm (inOrder (ps.foldl (fun t p => (bstAdd p.key p.value p.count t).1) t))
            (inOrder t ++ ps) := by
  intro ps
  induction ps with
  | nil => intro t hb ha _ _; exact ⟨hb, ha, by simp⟩
  | cons p ps ih =>
    intro t hb ha hfresh hnd
    rw [List.pairwise_cons] at hnd
    have hpt : p.key ∉ keysIn t := hfresh p (by simp)
    have hs : bstSearch p.key t = none := by
      cases hsearch : bstSearch p.key t with
      | none => rfl
      | some pl => exact absurd (bstSearch_mem p.key t pl hsearch) hpt
    have hio : inOrder (bstAdd p.key p.value p.count t).1 = insP p (inOrder t) := by
      have := inOrder_bstAdd_none p.key p.value p.count t hb hs
      simpa using this
    have hb1 : isBSTb (bstAdd p.key p.value p.count t).1 = true := by
      rw [isBSTb_iff_pairwise, keysIn, hio, List.pairwise_map]
      have hsorted : (inOrder t).Pairwise pkLt := by
        have := (isBSTb_iff_pairwise t).mp hb
        rw [keysIn, List.pairwise_map] at this
        exact this
      exact List.pairwise_map.mp
        ((List.pairwise_map (f := Payload.key)).mpr
          (insP_sorted p (inOrder t) hsorted
            (fun y hy => fun hEq => hpt (hEq ▸ List.mem_map_of_mem Payload.key hy))))
    have ha1 : isAVLBalanced (bstAdd p.key p.value p.count t).1 = true :=
      (avl_insert p.key p.value p.count t ha hs).1
    have hfresh1 : ∀ q ∈ ps, q.key ∉ keysIn (bstAdd p.key p.value p.count t).1 := by
      intro q hq hqmem
      rw [keysIn, hio] at hqmem
      have := ((insP_perm p (inOrder t)).map Payload.key).mem_iff.mp hqmem
      rcases List.mem_cons.mp this with h' | h'
      · exact hnd.1 q hq h'.symm
      · exact hfresh q (by simp [hq]) h'
    obtain ⟨hb2, ha2, hperm⟩ :=
      ih (bstAdd p.key p.value p.count t).1 hb1 ha1 hfresh1 hnd.2
    refine ⟨by simpa using hb2, by simpa using ha2, ?_⟩
    rw [List.foldl_cons]
    refine hperm.trans ?_
    have h1p : List.Perm (inOrder (bstAdd p.key p.value p.count t).1) (p :: inOrder t) := by
      rw [hio]; exact insP_perm p (inOrder t)
    exact (h1p.append_right ps).trans List.perm_middle.symm

end MTree

/-- The root produced by the rebuild loop is the fold of keyed insertions
of the emitted payloads over the empty tree. -/
lemma pbAddsOf_root (xs : List Payload) :
    ∀ (idxs : List Int) (s : MState),
      (pbAddsOf xs idxs s).root
        = (idxs.map (pNth xs)).foldl
            (fun t p => (MTree.bstAdd p.key p.value p.count t).1) s.root := by
  intro idxs
  induction idxs with
  | nil => intro s; rfl
  | cons i idxs ih =>
    intro s
    rw [pbAddsOf, List.foldl_cons, List.map_cons, List.foldl_cons]
    exact ih _

/-- The two `perfectlyBalance` variants are the same function on states:
the iterative range stack replays the recursive median split exactly. -/
lemma perfectlyBalance_variants_eq (s : MState) :
    perfectlyBalance s .ITERATIVE = perfectlyBalance s .RECURSIVE := by
  unfold perfectlyBalance
  by_cases h : (MTree.inOrder s.root).length < 1
  · simp [h]
  · simp [h, pbEmitIter_single]

open MTree in
/-- Core of the round-trip: the recursive rebuild of a non-empty
BST-ordered tree returns true, reproduces the exact in-order payload
sequence, and leaves every node AVL-balanced. -/
lemma pb_rec_core (s : MState) (hb : isBSTb s.root = true) (hne : s.root ≠ .nil) :
    (perfectlyBalance s .RECURSIVE).1 = true
      ∧ inOrder (perfectlyBalance s .RECURSIVE).2.root = inOrder s.root
      ∧ isAVLBalanced (perfectlyBalance s .RECURSIVE).2.root = true := by
  have hxs : inOrder s.root ≠ [] := inOrder_ne_nil s.root hne
  have hlen : ¬ (inOrder s.root).length < 1 := by
    cases h : inOrder s.root with
    | nil => exact absurd h hxs
    | cons a as => simp
  have hres : perfectlyBalance s .RECURSIVE
      = (true, pbAddsOf (inOrder s.root)
          (pbEmitRec 0 (((inOrder s.root).length : Int) - 1)) (clearS s)) := by
    simp only [perfectlyBalance]
    rw [if_neg hlen]
  rw [hres]
  refine ⟨rfl, ?_, ?_⟩ <;>
    rw [pbAddsOf_root]
  all_goals {
    have hmap :
        ((pbEmitRec 0 (((inOrder s.root).length : Int) - 1)).map (pNth (inOrder s.root))).Perm
          (inOrder s.root) := by
      refine ((pbEmitRec_perm 0 (((inOrder s.root).length : Int) - 1)).map _).trans ?_
      rw [intRange_map_pNth (inOrder s.root) (inOrder s.root) 0 le_rfl rfl]
    have hsorted : (inOrder s.root).Pairwise pkLt := by
      have := (isBSTb_iff_pairwise s.root).mp hb
      rw [keysIn, List.pairwise_map] at this
      exact this
    have hnd : ((pbEmitRec 0 (((inOrder s.root).length : Int) - 1)).map
        (pNth (inOrder s.root))).Pairwise (fun a b : Payload => a.key ≠ b.key) := by
      refine (hmap.pairwise_iff ?_).mpr (hsorted.imp ?_)
      · intro a b h h'; exact h h'.symm
      · intro a b h; exact Int.ne_of_lt h
    obtain ⟨hbT, haT, hpermT⟩ :=
      build_fold ((pbEmitRec 0 (((inOrder s.root).length : Int) - 1)).map
        (pNth (inOrder s.root))) .nil rfl rfl (by intro p _ hmem; simp [keysIn, inOrder] at hmem)
        hnd
    have hpermX := hpermT.trans hmap
    first
      | exact haT
      | {
          refine List.eq_of_perm_of_sorted hpermX ?_ hsorted
          have := (isBSTb_iff_pairwise _).mp hbT
          rw [keysIn, List.pairwise_map] at this
          exact this
        }
  }

open MTree in
/-- C5.  `perfectlyBalance` on a non-empty BST-ordered tree (either
variant) returns true, and an in-order DFS afterwards reproduces exactly
the in-order payload sequence from before the call (in particular every
(key, count) pair), with `isAVLBalanced()` true afterwards. -/
theorem claim_C5_pb_roundtrip (s : MState) (it : IterationType)
    (hb : isBSTb s.root = true) (hne : s.root ≠ .nil) :
    (perfectlyBalance s it).1 = true
      ∧ inOrder (perfectlyBalance s it).2.root = inOrder s.root
      ∧ isAVLBalanced (perfectlyBalance s it).2.root = true := by
  cases it with
  | RECURSIVE => exact pb_rec_core s hb hne
  | ITERATIVE => rw [perfectlyBalance_variants_eq]; exact pb_rec_core s hb hne

open MTree in
/-- Witness for C5 at a concrete input: a right-leaning three-node chain is
rebuilt with the same in-order sequence and ends AVL-balanced. -/
theorem claim_C5_witness :
    isBSTb (MTree.node .nil 1 0 1 (.node .nil 2 0 1 (.node .nil 3 0 2 .nil))) = true
      ∧ ((perfectlyBalance
            ⟨.node .nil 1 0 1 (.node .nil 2 0 1 (.node .nil 3 0 2 .nil)), 3, 4⟩
            .RECURSIVE).1 = true
          ∧ inOrder (perfectlyBalance
              ⟨.node .nil 1 0 1 (.node .nil 2 0 1 (.node .nil 3 0 2 .nil)), 3, 4⟩
              .RECURSIVE).2.root
            = inOrder (MTree.node .nil 1 0 1 (.node .nil 2 0 1 (.node .nil 3 0 2 .nil)))
          ∧ isAVLBalanced (perfectlyBalance
              ⟨.node .nil 1 0 1 (.node .nil 2 0 1 (.node .nil 3 0 2 .nil)), 3, 4⟩
              .RECURSIVE).2.root = true) :=
  ⟨by decide,
    claim_C5_pb_roundtrip
      ⟨.node .nil 1 0 1 (.node .nil 2 0 1 (.node .nil 3 0 2 .nil)), 3, 4⟩
      .RECURSIVE (by decide) (by decide)⟩

namespace MTree

/-- The in-order predecessor extraction removes exactly the last element of
the in-order sequence. -/
lemma inOrder_delMax : ∀ t : MTree, t ≠ nil →
    inOrder t = inOrder (delMax t).2 ++ [(delMax t).1] := by
  intro t
  induction t with
  | nil => intro h; exact absurd rfl h
  | node l k v c r ihl ihr =>
    intro _
    cases r with
    | nil => simp [delMax, inOrder]
    | node rl rk rv rc rr =>
      have hr := ihr (by simp)
      have hdm : delMax (node l k v c (node rl rk rv rc rr))
          = ((delMax (node rl rk rv rc rr)).1,
              balanceFix (node l k v c (delMax (node rl rk rv rc rr)).2)) := rfl
      rw [hdm]
      show inOrder l ++ ⟨k, v, c⟩ :: inOrder (node rl rk rv rc rr) = _
      rw [hr, inOrder_balanceFix]
      show _ = (inOrder l ++ ⟨k, v, c⟩ :: inOrder (delMax (node rl rk rv rc rr)).2)
        ++ [(delMax (node rl rk rv rc rr)).1]
      simp [List.append_assoc]

/-- The count-decrement outcome of the search never changes the key
sequence. -/
lemma delGo_dec_keys (p : Payload → Bool) (ig : Bool) :
    ∀ (t : MTree) (d : Payload) (t' : MTree),
      delGo p ig t = .decremented d t' → keysIn t' = keysIn t := by
  intro t
  induction t using delGo.induct p ig with
  | case1 => intro d t' h; simp [delGo] at h
  | case2 ll lk lv lc lr hp hc =>
    intro d t' h
    simp [delGo, hp, hc] at h
    rw [← h.2, keysIn_node, keysIn_node]
  | case3 lk lv lc lr hp hc =>
    intro d t' h
    simp only [delGo, hp, if_true] at h
    rw [if_neg (fun hcond => hc ⟨hcond.1, by simp [hcond.2]⟩)] at h
    simp at h
  | case4 lk lv lc lr hp hc ll lk1 lv1 lc1 lr1 =>
    intro d t' h
    simp only [delGo, hp, if_true] at h
    rw [if_neg (fun hcond => hc ⟨hcond.1, by simp [hcond.2]⟩)] at h
    simp at h
  | case5 ll lk lv lc lr hp d0 t0 hdl ihl =>
    intro d t' h
    simp [delGo, hp, hdl] at h
    rw [← h.2, keysIn_node, keysIn_node, ihl d0 t0 hdl]
  | case6 ll lk lv lc lr hp d0 t0 hdl ihl =>
    intro d t' h
    simp [delGo, hp, hdl] at h
  | case7 ll lk lv lc lr hp hdl d0 t0 hdr ihl ihr =>
    intro d t' h
    simp [delGo, hp, hdl, hdr] at h
    rw [← h.2, keysIn_node, keysIn_node, ihr d0 t0 hdr]
  | case8 ll lk lv lc lr hp hdl d0 t0 hdr ihl ihr =>
    intro d t' h
    simp [delGo, hp, hdl, hdr] at h
  | case9 ll lk lv lc lr hp hdl hdr ihl ihr =>
    intro d t' h
    simp [delGo, hp, hdl, hdr] at h

/-- The structural-removal outcome deletes exactly one element of the
in-order sequence, in place. -/
lemma delGo_rem_inOrder (p : Payload → Bool) (ig : Bool) :
    ∀ (t : MTree) (d : Payload) (t' : MTree),
      delGo p ig t = .removed d t' →
        ∃ A B, inOrder t = A ++ d :: B ∧ inOrder t' = A ++ B := by
  intro t
  induction t using delGo.induct p ig with
  | case1 => intro d t' h; simp [delGo] at h
  | case2 ll lk lv lc lr hp hc =>
    intro d t' h
    simp [delGo, hp, hc] at h
  | case3 lk lv lc lr hp hc =>
    intro d t' h
    simp only [delGo, hp, if_true] at h
    rw [if_neg (fun hcond => hc ⟨hcond.1, by simp [hcond.2]⟩)] at h
    simp at h
    refine ⟨[], inOrder lr, ?_, by simp [h.2]⟩
    simp [inOrder, ← h.1]
  | case4 lk lv lc lr hp hc ll lk1 lv1 lc1 lr1 =>
    intro d t' h
    simp only [delGo, hp, if_true] at h
    rw [if_neg (fun hcond => hc ⟨hcond.1, by simp [hcond.2]⟩)] at h
    simp at h
    refine ⟨inOrder (delMax (node ll lk1 lv1 lc1 lr1)).2
        ++ [(delMax (node ll lk1 lv1 lc1 lr1)).1], inOrder lr, ?_, ?_⟩
    · rw [inOrder, inOrder_delMax (node ll lk1 lv1 lc1 lr1) (by simp), ← h.1]
    · rw [← h.2, inOrder_balanceFix, inOrder]
      simp [List.append_assoc]
  | case5 ll lk lv lc lr hp d0 t0 hdl ihl =>
    intro d t' h
    simp [delGo, hp, hdl] at h
  | case6 ll lk lv lc lr hp d0 t0 hdl ihl =>
    intro d t' h
    simp [delGo, hp, hdl] at h
    obtain ⟨A, B, hAB, hAB'⟩ := ihl d0 t0 hdl
    refine ⟨A, B ++ ⟨lk, lv, lc⟩ :: inOrder lr, ?_, ?_⟩
    · rw [inOrder, hAB, ← h.1]; simp [List.append_assoc]
    · rw [← h.2, inOrder_balanceFix, inOrder, hAB']; simp [List.append_assoc]
  | case7 ll lk lv lc lr hp hdl d0 t0 hdr ihl ihr =>
    intro d t' h
    simp [delGo, hp, hdl, hdr] at h
  | case8 ll lk lv lc lr hp hdl d0 t0 hdr ihl ihr =>
    intro d t' h
    simp [delGo, hp, hdl, hdr] at h
    obtain ⟨A, B, hAB, hAB'⟩ := ihr d0 t0 hdr
    refine ⟨inOrder ll ++ ⟨lk, lv, lc⟩ :: A, B, ?_, ?_⟩
    · rw [inOrder, hAB, ← h.1]; simp [List.append_assoc]
    · rw [← h.2, inOrder_balanceFix, inOrder, hAB']; simp [List.append_assoc]
  | case9 ll lk lv lc lr hp hdl hdr ihl ihr =>
    intro d t' h
    simp [delGo, hp, hdl, hdr] at h

/-- Equal key sequences transfer sortedness. -/
lemma sorted_keys_transfer (t t' : MTree) (he : keysIn t' = keysIn t)
    (hb : (inOrder t).Pairwise pkLt) : (inOrder t').Pairwise pkLt := by
  have h1 : (keysIn t).Pairwise (· < ·) := by
    rw [keysIn]; exact List.pairwise_map.mpr hb
  have h2 : (keysIn t').Pairwise (· < ·) := he ▸ h1
  rw [keysIn] at h2
  exact (List.pairwise_map (f := Payload.key)).mp h2

lemma pairwise_remove_mid (A B : List Payload) (d : Payload)
    (hb : (A ++ d :: B).Pairwise pkLt) : (A ++ B).Pairwise pkLt :=
  hb.sublist ((List.Sublist.refl A).append (List.sublist_cons_self d B))

end MTree

open MTree in
/-- `delete` preserves the sortedness of the in-order sequence: the
count-decrement branch keeps the key sequence, structural removal deletes
one element in place (with the predecessor payload relocation), and
rebalancing only rotates. -/
lemma sorted_deleteP (p : Payload → Bool) (ig : Bool) (s : MState)
    (hb : (inOrder s.root).Pairwise pkLt) :
    (inOrder (deleteP p ig s).2.root).Pairwise pkLt := by
  obtain ⟨root, sz, ct⟩ := s
  cases root with
  | nil => exact hb
  | node l k v c r =>
    by_cases hp : p ⟨k, v, c⟩
    · by_cases hcnd : c > 1 ∧ ¬ig
      · have hres : (deleteP p ig ⟨node l k v c r, sz, ct⟩).2.root = node l k v (c - 1) r := by
          simp [deleteP, hp, hcnd]
        rw [hres]
        exact sorted_keys_transfer (node l k v c r) (node l k v (c - 1) r)
          (by rw [keysIn_node, keysIn_node]) hb
      · cases l with
        | nil =>
          have hres : (deleteP p ig ⟨node nil k v c r, sz, ct⟩).2.root
              = (if r = nil then node nil k v c r else r) := by
            simp only [deleteP, hp, if_true]
            rw [if_neg (fun hcond => hcnd ⟨hcond.1, by simp [hcond.2]⟩)]
          rw [hres]
          by_cases hr : r = nil
          · rw [if_pos hr]; exact hb
          · rw [if_neg hr]
            have : inOrder (node nil k v c r) = ⟨k, v, c⟩ :: inOrder r := by
              simp [inOrder]
            rw [this] at hb
            exact hb.of_cons
        | node ll lk lv lc lr =>
          have hres : (deleteP p ig ⟨node (node ll lk lv lc lr) k v c r, sz, ct⟩).2.root
              = balanceFix (node (delMax (node ll lk lv lc lr)).2
                  (delMax (node ll lk lv lc lr)).1.key
                  (delMax (node ll lk lv lc lr)).1.value
                  (delMax (node ll lk lv lc lr)).1.count r) := by
            simp only [deleteP, hp, if_true]
            rw [if_neg (fun hcond => hcnd ⟨hcond.1, by simp [hcond.2]⟩)]
          rw [hres, inOrder_balanceFix, inOrder]
          have hsplit : inOrder (node (node ll lk lv lc lr) k v c r)
              = (inOrder (delMax (node ll lk lv lc lr)).2
                  ++ (delMax (node ll lk lv lc lr)).1 :: [])
                ++ ⟨k, v, c⟩ :: inOrder r := by
            rw [inOrder, inOrder_delMax (node ll lk lv lc lr) (by simp)]
          rw [hsplit] at hb
          have := pairwise_remove_mid _ _ _ hb
          simpa [List.append_assoc] using this
    · cases hdl : delGo p ig l with
      | decremented d t0 =>
        have hres : (deleteP p ig ⟨node l k v c r, sz, ct⟩).2.root = node t0 k v c r := by
          simp [deleteP, hp, hdl]
        rw [hres]
        exact sorted_keys_transfer (node l k v c r) (node t0 k v c r)
          (by rw [keysIn_node, keysIn_node, delGo_dec_keys p ig l d t0 hdl]) hb
      | removed d t0 =>
        have hres : (deleteP p ig ⟨node l k v c r, sz, ct⟩).2.root
            = balanceFix (node t0 k v c r) := by
          simp [deleteP, hp, hdl]
        rw [hres, inOrder_balanceFix, inOrder]
        obtain ⟨A, B, hAB, hAB'⟩ := delGo_rem_inOrder p ig l d t0 hdl
        have hsplit : inOrder (node l k v c r) = A ++ d :: (B ++ ⟨k, v, c⟩ :: inOrder r) := by
          rw [inOrder, hAB]; simp [List.append_assoc]
        rw [hsplit] at hb
        have := pairwise_remove_mid _ _ _ hb
        rw [hAB']
        simpa [List.append_assoc] using this
      | notFound =>
        cases hdr : delGo p ig r with
        | decremented d t0 =>
          have hres : (deleteP p ig ⟨node l k v c r, sz, ct⟩).2.root = node l k v c t0 := by
            simp [deleteP, hp, hdl, hdr]
          rw [hres]
          exact sorted_keys_transfer (node l k v c r) (node l k v c t0)
            (by rw [keysIn_node, keysIn_node, delGo_dec_keys p ig r d t0 hdr]) hb
        | removed d t0 =>
          have hres : (deleteP p ig ⟨node l k v c r, sz, ct⟩).2.root
              = balanceFix (node l k v c t0) := by
            simp [deleteP, hp, hdl, hdr]
          rw [hres, inOrder_balanceFix, inOrder]
          obtain ⟨A, B, hAB, hAB'⟩ := delGo_rem_inOrder p ig r d t0 hdr
          have hsplit : inOrder (node l k v c r)
              = (inOrder l ++ ⟨k, v, c⟩ :: A) ++ d :: B := by
            rw [inOrder, hAB]; simp [List.append_assoc]
          rw [hsplit] at hb
          have := pairwise_remove_mid _ _ _ hb
          rw [hAB']
          simpa [List.append_assoc] using this
        | notFound =>
          have hres : (deleteP p ig ⟨node l k v c r, sz, ct⟩).2.root = node l k v c r := by
            simp [deleteP, hp, hdl, hdr]
          rw [hres]
          exact hb

namespace MTree

/-- Key-level and payload-level sortedness of the in-order sequence
coincide. -/
lemma keys_sorted_iff (t : MTree) :
    (keysIn t).Pairwise (· < ·) ↔ (inOrder t).Pairwise pkLt := by
  rw [keysIn]; exact List.pairwise_map (f := Payload.key)

/-- Keyed insertion keeps the BST order: a merge leaves the keys unchanged
and a fresh key is placed at its sorted position. -/
lemma isBSTb_bstAdd (k v c : Int) (t : MTree) (hb : isBSTb t = true) :
    isBSTb (bstAdd k v c t).1 = true := by
  cases hs : bstSearch k t with
  | some pl =>
    have h1 : (bstAdd k v c t).1 = mergeK k v c t := by
      rw [bstAdd_found k v c t pl hs]
    rw [h1, isBSTb_iff_pairwise, keysIn_mergeK]
    exact (isBSTb_iff_pairwise t).mp hb
  | none =>
    rw [isBSTb_iff_pairwise, keysIn, inOrder_bstAdd_none k v c t hb hs]
    refine (List.pairwise_map (f := Payload.key)).mpr ?_
    refine insP_sorted ⟨k, v, c⟩ (inOrder t) ?_ ?_
    · exact (keys_sorted_iff t).mp ((isBSTb_iff_pairwise t).mp hb)
    · intro y hy hEq
      refine bstSearch_none_not_mem k t hb hs ?_
      rw [show k = y.key from hEq]
      exact List.mem_map_of_mem Payload.key hy

end MTree

open MTree in
/-- `add` (any exemplar, any count) preserves in-order sortedness. -/
lemma sorted_addEx (s : MState) (x : Exemplar) (cnt : Int)
    (hb : (inOrder s.root).Pairwise pkLt) :
    (inOrder (addEx s x cnt).2.root).Pairwise pkLt := by
  have hroot : ∀ k v c : Int, (inOrder (bstAdd k v c s.root).1).Pairwise pkLt := by
    intro k v c
    exact (keys_sorted_iff _).mp ((isBSTb_iff_pairwise _).mp
      (isBSTb_bstAdd k v c s.root
        ((isBSTb_iff_pairwise _).mpr ((keys_sorted_iff _).mpr hb))))
  cases x with
  | nodeEx k v c => exact hroot k v c
  | keyEx k => exact hroot k 0 cnt
  | entryEx k v =>
    cases k with
    | none => exact hb
    | some k0 => exact hroot k0 v cnt
  | nullEx => exact hb
  | otherEx => exact hb

open MTree in
/-- `addMany` preserves in-order sortedness. -/
lemma sorted_addManyS (xs : List Exemplar) :
    ∀ s : MState, (inOrder s.root).Pairwise pkLt →
      (inOrder (addManyS s xs).2.root).Pairwise pkLt := by
  induction xs with
  | nil => intro s hb; exact hb
  | cons x xs ih =>
    intro s hb
    exact ih (addEx s x 1).2 (sorted_addEx s x 1 hb)

open MTree in
/-- `perfectlyBalance` preserves in-order sortedness (it reproduces the
in-order sequence exactly on a non-empty tree and is the identity on an
empty one). -/
lemma sorted_pb (s : MState) (it : IterationType)
    (hb : (inOrder s.root).Pairwise pkLt) :
    (inOrder (perfectlyBalance s it).2.root).Pairwise pkLt := by
  by_cases hroot : s.root = .nil
  · have hio : inOrder s.root = [] := by rw [hroot]; rfl
    have : perfectlyBalance s it = (false, s) := by
      simp [perfectlyBalance, hio]
    rw [this]
    exact hb
  · have hcore := pb_rec_core s ((isBSTb_iff_pairwise _).mpr ((keys_sorted_iff _).mpr hb)) hroot
    cases it with
    | RECURSIVE => rw [hcore.2.1]; exact hb
    | ITERATIVE => rw [perfectlyBalance_variants_eq, hcore.2.1]; exact hb

open MTree in
/-- C7.  Starting from a tree whose in-order key sequence is strictly
increasing, every public operation — `add` with any exemplar and count,
`addMany`, `delete` with any callback and `ignoreCount` flag (including
its in-order-predecessor payload relocation), `perfectlyBalance` with
either variant, and `clear` — leaves the in-order key sequence strictly
increasing. -/
theorem claim_C7_bst_order_preserved (s : MState)
    (hb : (keysIn s.root).Pairwise (· < ·)) :
    (∀ (x : Exemplar) (cnt : Int), (keysIn (addEx s x cnt).2.root).Pairwise (· < ·))
      ∧ (∀ xs : List Exemplar, (keysIn (addManyS s xs).2.root).Pairwise (· < ·))
      ∧ (∀ (p : Payload → Bool) (ig : Bool),
          (keysIn (deleteP p ig s).2.root).Pairwise (· < ·))
      ∧ (∀ it : IterationType, (keysIn (perfectlyBalance s it).2.root).Pairwise (· < ·))
      ∧ (keysIn (clearS s).root).Pairwise (· < ·) := by
  have hb' := (keys_sorted_iff s.root).mp hb
  refine ⟨?_, ?_, ?_, ?_, ?_⟩
  · intro x cnt; exact (keys_sorted_iff _).mpr (sorted_addEx s x cnt hb')
  · intro xs; exact (keys_sorted_iff _).mpr (sorted_addManyS xs s hb')
  · intro p ig; exact (keys_sorted_iff _).mpr (sorted_deleteP p ig s hb')
  · intro it; exact (keys_sorted_iff _).mpr (sorted_pb s it hb')
  · simp [clearS, keysIn, inOrder]

open MTree in
/-- Witness for C7 at a concrete input: a three-node BST. -/
theorem claim_C7_witness :
    (keysIn (MTree.node (.node .nil 2 0 1 .nil) 5 0 2 (.node .nil 9 0 1 .nil))).Pairwise
        (· < ·)
      ∧ (keysIn (deleteP (fun pl => pl.key == 5) false
            ⟨.node (.node .nil 2 0 1 .nil) 5 0 2 (.node .nil 9 0 1 .nil), 3, 4⟩).2.root).Pairwise
          (· < ·) :=
  ⟨by decide,
    (claim_C7_bst_order_preserved
      ⟨.node (.node .nil 2 0 1 .nil) 5 0 2 (.node .nil 9 0 1 .nil), 3, 4⟩
      (by decide)).2.2.1 (fun pl => pl.key == 5) false⟩

/-- C10.  The iterative and the recursive variant of `perfectlyBalance`
issue the identical sequence of `add` calls — the explicit stack pops the
left half of each range before the right half, reproducing the pre-order
of the recursive median split — and therefore build identical final
states (same tree shape, not merely equal content). -/
theorem claim_C10_pb_variants_same_adds (s : MState) (l r : Int) :
    pbEmitIter [(l, r)] = pbEmitRec l r
      ∧ perfectlyBalance s .ITERATIVE = perfectlyBalance s .RECURSIVE :=
  ⟨pbEmitIter_single l r, perfectlyBalance_variants_eq s⟩

/-- C9.  The two `perfectlyBalance` variants agree on everything
observable: the returned flag, the in-order payload sequence (hence the
key order and every per-key count) and the totals. -/
theorem claim_C9_pb_variants_equivalent (s : MState) :
    (perfectlyBalance s .ITERATIVE).1 = (perfectlyBalance s .RECURSIVE).1
      ∧ MTree.inOrder (perfectlyBalance s .ITERATIVE).2.root
          = MTree.inOrder (perfectlyBalance s .RECURSIVE).2.root
      ∧ MTree.keysIn (perfectlyBalance s .ITERATIVE).2.root
          = MTree.keysIn (perfectlyBalance s .RECURSIVE).2.root
      ∧ countProp (perfectlyBalance s .ITERATIVE).2
          = countProp (perfectlyBalance s .RECURSIVE).2
      ∧ (perfectlyBalance s .ITERATIVE).2._size
          = (perfectlyBalance s .RECURSIVE).2._size := by
  rw [perfectlyBalance_variants_eq s]
  exact ⟨rfl, rfl, rfl, rfl, rfl⟩
